import Mathlib

/-!
Shallow embedding of the embedding-quality measures module
(`src/evaluation/measures.py`): pairwise Euclidean distances, stress, RMSE,
stable neighbour/rank extraction, trustworthiness, continuity and
neighbourhood loss, together with proofs of the specified properties.

Modelling conventions:
* a point cloud is a function `Fin n → Fin d → ℚ` (the source uses dense
  numpy float arrays; exact rationals stand in for floats);
* real-valued quantities built from square roots live in `ℝ`;
* operations that raise a Python exception (`ZeroDivisionError`) or produce
  a NaN/inf accompanied by a numpy `RuntimeWarning` are modelled as `none`.
-/

namespace Measures

/-- A point cloud: `n` points (rows) with `d` rational coordinates each. -/
def Cloud (n d : ℕ) : Type := Fin n → Fin d → ℚ

/-- The squared Euclidean distance between rows `i` and `j` of `X`: the inner
`np.sum((X[None, :] - X[:, None])**2, -1)` of `pairwise_distances`. -/
def pdistSq {n d : ℕ} (X : Cloud n d) (i j : Fin n) : ℚ :=
  ∑ l, (X i l - X j l) ^ 2

/-- `pairwise_distances(X)`: entry `(i, j)` of
`D = (np.sum((X[None, :] - X[:, None])**2, -1))**0.5`. -/
noncomputable def pairwise_distances {n d : ℕ} (X : Cloud n d) (i j : Fin n) : ℝ :=
  Real.sqrt (pdistSq X i j)

/-- The Euclidean distance between two points, stated in the spec's own
words: the square root of the sum of squared coordinate differences.  Used
only to compare `pairwise_distances` against the specified entry values. -/
noncomputable def euclideanDist {d : ℕ} (x y : Fin d → ℚ) : ℝ :=
  Real.sqrt (∑ l, ((x l : ℝ) - (y l : ℝ)) ^ 2)

/-- The order produced by `np.argsort(v, kind='stable')` on a vector of keys:
ascending by key, with ties broken by ascending index.  A stable ascending
sort of the values is exactly a sort by the lexicographic pair
`(key, index)`. -/
def argsortRel {n : ℕ} {α : Type} [LinearOrder α] (key : Fin n → α) (a b : Fin n) : Prop :=
  key a < key b ∨ (key a = key b ∧ a ≤ b)

instance argsortRelDecidable {n : ℕ} {α : Type} [LinearOrder α] (key : Fin n → α) :
    DecidableRel (argsortRel key) := fun a b => by
  unfold argsortRel
  infer_instance

/-- `np.argsort(key, kind='stable')`: the indices `0, …, n-1` sorted in
ascending key order with ties broken by index. -/
def argsort {n : ℕ} {α : Type} [LinearOrder α] (key : Fin n → α) : List (Fin n) :=
  (List.finRange n).insertionSort (argsortRel key)

/-- Row `i` of `X_ranks = np.argsort(X, axis=-1, kind='stable')`: all point
indices ordered by ascending distance from point `i` (ties by index).  By
`argsortRel_sqrt` below, the (computable) squared distances induce exactly
the order of the real distance matrix that the source sorts. -/
def ordering {n d : ℕ} (X : Cloud n d) (i : Fin n) : List (Fin n) :=
  argsort (fun j => pdistSq X i j)

/-- The ordering row as a function: `ordFn X i p` is the point index found at
sorted position `p`. -/
def ordFn {n d : ℕ} (X : Cloud n d) (i : Fin n) (p : Fin n) : Fin n :=
  (ordering X i).get ⟨p, by
    simp only [ordering, argsort, List.length_insertionSort, List.length_finRange]
    exact p.isLt⟩

/-- Row `i` of `X_neighbourhood = X_ranks[:, 1:k+1]`: sorted positions
`1, …, k` of the ordering.  As with numpy slices, the row is silently
truncated when `k + 1` exceeds `n`. -/
def neighbourhood {n d : ℕ} (X : Cloud n d) (k : ℕ) (i : Fin n) : List (Fin n) :=
  ((ordering X i).drop 1).take k

/-- Row `i` of the rank matrix `X_ranks.argsort(axis=-1, kind='stable')`:
the stable argsort of the ordering row, read as a list indexed by point. -/
def ranksRow {n d : ℕ} (X : Cloud n d) (i : Fin n) : List (Fin n) :=
  argsort (ordFn X i)

/-- Entry `(i, j)` of the rank matrix: the rank of point `j` in the
distance ordering from point `i`. -/
def rank {n d : ℕ} (X : Cloud n d) (i j : Fin n) : Fin n :=
  (ranksRow X i).get ⟨j, by
    simp only [ranksRow, argsort, List.length_insertionSort, List.length_finRange]
    exact j.isLt⟩

/-- `get_neighbours_and_ranks(X, k)`: the pair of the neighbourhood matrix
(one index list per row) and the rank matrix. -/
def get_neighbours_and_ranks {n d : ℕ} (X : Cloud n d) (k : ℕ) :
    (Fin n → List (Fin n)) × (Fin n → Fin n → Fin n) :=
  (neighbourhood X k, rank X)

/-- The rows of `X` are pairwise distinct (no duplicate points). -/
def DistinctRows {n d : ℕ} (X : Cloud n d) : Prop :=
  ∀ a b : Fin n, a ≠ b → X a ≠ X b

instance distinctRowsDecidable {n d : ℕ} (X : Cloud n d) : Decidable (DistinctRows X) := by
  unfold DistinctRows
  infer_instance

/-- `np.setdiff1d(a, b)`: the sorted unique values of `a` that are not in
`b`. -/
def setdiff1d {n : ℕ} (a b : List (Fin n)) : List (Fin n) :=
  (a.toFinset \ b.toFinset).sort LE.le

/-- `np.intersect1d(a, b)`: the sorted unique values common to `a` and
`b`. -/
def intersect1d {n : ℕ} (a b : List (Fin n)) : List (Fin n) :=
  (a.toFinset ∩ b.toFinset).sort LE.le

/-- The accumulated `result` of the `trustworthiness` loop: for every row,
for every neighbour in the latent neighbourhood that is missing from the
data-space neighbourhood, the excess rank `X_ranks[row, neighbour] - k`. -/
def trustSum {n d e : ℕ} (X : Cloud n d) (Z : Cloud n e) (k : ℕ) : ℤ :=
  ∑ i : Fin n,
    ((setdiff1d (neighbourhood Z k i) (neighbourhood X k i)).map
      (fun j => (rank X i j : ℤ) - (k : ℤ))).sum

/-- `trustworthiness(X, Z, k)`.  The final line divides the Python integer
`2` by `n * k * (2 * n - 3 * k - 1)`; when that denominator is zero Python
raises `ZeroDivisionError`, modelled as `none`. -/
def trustworthiness {n d e : ℕ} (X : Cloud n d) (Z : Cloud n e) (k : ℕ) : Option ℚ :=
  if (n : ℤ) * k * (2 * n - 3 * k - 1) = 0 then none
  else some (1 - 2 / (((n : ℤ) * k * (2 * n - 3 * k - 1) : ℤ) : ℚ) * (trustSum X Z k : ℚ))

/-- `continuity(X, Z, k)`: delegates to `trustworthiness` with the two
spaces flipped. -/
def continuity {n d e : ℕ} (X : Cloud n d) (Z : Cloud n e) (k : ℕ) : Option ℚ :=
  trustworthiness Z X k

/-- `neighbouhood_loss(X, Z, k)` (spelling as in the source).  Python raises
`ZeroDivisionError` when `k = 0` (the per-row `len(shared) / k`) or when
`n = 0` (the final `result / n`); both are modelled as `none`. -/
def neighbouhood_loss {n d e : ℕ} (X : Cloud n d) (Z : Cloud n e) (k : ℕ) : Option ℚ :=
  if n = 0 ∨ k = 0 then none
  else some (1 -
    (∑ i : Fin n,
      ((intersect1d (neighbourhood X k i) (neighbourhood Z k i)).length : ℚ) / k) / n)

/-- `np.square(X - Z).sum()` where both operands are the pairwise distance
matrices of the two spaces. -/
noncomputable def sum_of_squared_differences {n d e : ℕ} (X : Cloud n d) (Z : Cloud n e) : ℝ :=
  ∑ i : Fin n, ∑ j : Fin n, (pairwise_distances X i j - pairwise_distances Z i j) ^ 2

/-- `np.square(Z).sum()` for the distance matrix of `Z`.  Each squared entry
`(pairwise_distances Z i j)^2` equals the rational `pdistSq Z i j`
(`sq_pairwise_distances` below), so the sum is the rational sum of squared
distances, keeping the zero test of `stress` decidable. -/
def sum_of_squares {n e : ℕ} (Z : Cloud n e) : ℚ :=
  ∑ i : Fin n, ∑ j : Fin n, pdistSq Z i j

/-- `stress(X, Z)`.  When every pairwise distance in `Z` is zero the float
division is `0/0` or `x/0`, which numpy surfaces as NaN or inf together
with a `RuntimeWarning`; modelled as `none`. -/
noncomputable def stress {n d e : ℕ} (X : Cloud n d) (Z : Cloud n e) : Option ℝ :=
  if sum_of_squares Z = 0 then none
  else some (Real.sqrt (sum_of_squared_differences X Z / ((sum_of_squares Z : ℚ) : ℝ)))

/-- `RMSE(X, Z)`.  For `n = 0` the float division `0.0 / 0` is NaN (with a
warning); modelled as `none`. -/
noncomputable def RMSE {n d e : ℕ} (X : Cloud n d) (Z : Cloud n e) : Option ℝ :=
  if n = 0 then none
  else some (Real.sqrt (sum_of_squared_differences X Z / ((n : ℝ) ^ 2)))

/-- Concrete cloud with two identical points (both at the origin). -/
def Xdup : Cloud 2 1 := fun _ _ => 0

/-- Concrete cloud with a single point. -/
def Xone : Cloud 1 1 := fun _ _ => 0

/-- Concrete cloud with two distinct points, at 0 and 1 on a line. -/
def Xtwo : Cloud 2 1 := fun i _ => (i : ℚ)

/-- Concrete cloud with three points at 0, 1 and 2 on a line. -/
def Xthree : Cloud 3 1 := fun i _ => (i : ℚ)

/-- A second three-point cloud, at 0, 3 and 4 on a line. -/
def Zthree : Cloud 3 1 := fun i _ => if (i : ℕ) = 0 then 0 else (i : ℚ) + 2

lemma pdistSq_nonneg {n d : ℕ} (X : Cloud n d) (i j : Fin n) : 0 ≤ pdistSq X i j :=
  Finset.sum_nonneg fun _ _ => sq_nonneg _

lemma pdistSq_self {n d : ℕ} (X : Cloud n d) (i : Fin n) : pdistSq X i i = 0 := by
  simp [pdistSq]

lemma pdistSq_comm {n d : ℕ} (X : Cloud n d) (i j : Fin n) :
    pdistSq X i j = pdistSq X j i := by
  unfold pdistSq
  congr 1
  funext l
  ring

lemma pdistSq_eq_zero_iff {n d : ℕ} (X : Cloud n d) (i j : Fin n) :
    pdistSq X i j = 0 ↔ X i = X j := by
  unfold pdistSq
  rw [Finset.sum_eq_zero_iff_of_nonneg fun l _ => sq_nonneg _]
  constructor
  · intro h
    funext l
    have := h l (Finset.mem_univ l)
    have h2 : X i l - X j l = 0 := by
      exact pow_eq_zero_iff (n := 2) (by norm_num) |>.mp this
    linarith
  · intro h l _
    rw [h]
    ring

lemma sq_pairwise_distances {n d : ℕ} (X : Cloud n d) (i j : Fin n) :
    (pairwise_distances X i j) ^ 2 = ((pdistSq X i j : ℚ) : ℝ) := by
  unfold pairwise_distances
  rw [Real.sq_sqrt]
  exact_mod_cast pdistSq_nonneg X i j

lemma argsortRel_total {n : ℕ} {α : Type} [LinearOrder α] (key : Fin n → α) :
    ∀ a b : Fin n, argsortRel key a b ∨ argsortRel key b a := by
  intro a b
  rcases lt_trichotomy (key a) (key b) with h | h | h
  · exact Or.inl (Or.inl h)
  · rcases le_total a b with hab | hab
    · exact Or.inl (Or.inr ⟨h, hab⟩)
    · exact Or.inr (Or.inr ⟨h.symm, hab⟩)
  · exact Or.inr (Or.inl h)

lemma argsortRel_trans {n : ℕ} {α : Type} [LinearOrder α] (key : Fin n → α) :
    ∀ a b c : Fin n, argsortRel key a b → argsortRel key b c → argsortRel key a c := by
  intro a b c hab hbc
  rcases hab with h1 | ⟨h1, h1'⟩ <;> rcases hbc with h2 | ⟨h2, h2'⟩
  · exact Or.inl (h1.trans h2)
  · exact Or.inl (h2 ▸ h1)
  · exact Or.inl (h1 ▸ h2)
  · exact Or.inr ⟨h1.trans h2, h1'.trans h2'⟩

lemma argsortRel_antisymm {n : ℕ} {α : Type} [LinearOrder α] (key : Fin n → α) :
    ∀ a b : Fin n, argsortRel key a b → argsortRel key b a → a = b := by
  intro a b hab hba
  rcases hab with h1 | ⟨h1, h1'⟩ <;> rcases hba with h2 | ⟨h2, h2'⟩
  · exact absurd h2 (not_lt_of_lt h1)
  · exact absurd h1 (h2 ▸ lt_irrefl _)
  · exact absurd h2 (h1 ▸ lt_irrefl _)
  · exact le_antisymm h1' h2'

lemma argsort_perm {n : ℕ} {α : Type} [LinearOrder α] (key : Fin n → α) :
    List.Perm (argsort key) (List.finRange n) :=
  List.perm_insertionSort _ _

lemma length_argsort {n : ℕ} {α : Type} [LinearOrder α] (key : Fin n → α) :
    (argsort key).length = n := by
  rw [(argsort_perm key).length_eq, List.length_finRange]

lemma nodup_argsort {n : ℕ} {α : Type} [LinearOrder α] (key : Fin n → α) :
    (argsort key).Nodup :=
  (argsort_perm key).nodup_iff.mpr (List.nodup_finRange n)

lemma mem_argsort {n : ℕ} {α : Type} [LinearOrder α] (key : Fin n → α) (a : Fin n) :
    a ∈ argsort key :=
  (argsort_perm key).mem_iff.mpr (List.mem_finRange a)

lemma sorted_argsort {n : ℕ} {α : Type} [LinearOrder α] (key : Fin n → α) :
    List.Sorted (argsortRel key) (argsort key) :=
  @List.sorted_insertionSort _ _ _ ⟨argsortRel_total key⟩ ⟨argsortRel_trans key⟩ _

/-- Sorting a row of the real distance matrix and sorting the corresponding
squared distances produce the same stable order: `Real.sqrt` is strictly
monotone (and injective) on the non-negative keys, so both the strict
comparisons and the ties coincide. -/
lemma argsortRel_sqrt {n d : ℕ} (X : Cloud n d) (i : Fin n) (a b : Fin n) :
    argsortRel (fun j => pairwise_distances X i j) a b ↔
      argsortRel (fun j => pdistSq X i j) a b := by
  have ha : (0 : ℝ) ≤ ((pdistSq X i a : ℚ) : ℝ) := by exact_mod_cast pdistSq_nonneg X i a
  have hb : (0 : ℝ) ≤ ((pdistSq X i b : ℚ) : ℝ) := by exact_mod_cast pdistSq_nonneg X i b
  simp only [argsortRel, pairwise_distances]
  constructor
  · rintro (h | ⟨h, h'⟩)
    · exact Or.inl (by exact_mod_cast (Real.sqrt_lt_sqrt_iff ha).mp h)
    · exact Or.inr ⟨by exact_mod_cast (Real.sqrt_inj ha hb).mp h, h'⟩
  · rintro (h | ⟨h, h'⟩)
    · exact Or.inl ((Real.sqrt_lt_sqrt_iff ha).mpr (by exact_mod_cast h))
    · exact Or.inr ⟨(Real.sqrt_inj ha hb).mpr (by exact_mod_cast h), h'⟩

lemma length_ordering {n d : ℕ} (X : Cloud n d) (i : Fin n) :
    (ordering X i).length = n :=
  length_argsort _

lemma length_ranksRow {n d : ℕ} (X : Cloud n d) (i : Fin n) :
    (ranksRow X i).length = n :=
  length_argsort _

/-- When `i0` has the strictly smallest key, the stable argsort places it
first, and (being duplicate-free) nowhere else. -/
lemma argsort_eq_cons {n : ℕ} {α : Type} [LinearOrder α] (key : Fin n → α) (i0 : Fin n)
    (h : ∀ j, j ≠ i0 → key i0 < key j) :
    ∃ t, argsort key = i0 :: t ∧ i0 ∉ t := by
  have hmem := mem_argsort key i0
  have hnd := nodup_argsort key
  have hsorted := sorted_argsort key
  cases hL : argsort key with
  | nil =>
    rw [hL] at hmem
    exact absurd hmem (List.not_mem_nil i0)
  | cons a t =>
    rw [hL] at hmem hnd hsorted
    by_cases hai : a = i0
    · subst hai
      exact ⟨t, rfl, (List.nodup_cons.mp hnd).1⟩
    · have hi0t : i0 ∈ t := by
        rcases List.mem_cons.mp hmem with h1 | h1
        · exact absurd h1.symm hai
        · exact h1
      have hrel : argsortRel key a i0 := List.rel_of_sorted_cons hsorted i0 hi0t
      rcases hrel with hlt | ⟨heq, _⟩
      · exact absurd hlt (not_lt_of_lt (h a hai))
      · exact absurd heq (ne_of_gt (h a hai))

lemma ofFn_perm_finRange {n : ℕ} (f : Fin n → Fin n) (hf : Function.Injective f) :
    List.Perm (List.ofFn f) (List.finRange n) := by
  rw [List.perm_ext_iff_of_nodup (List.nodup_ofFn.mpr hf) (List.nodup_finRange n)]
  intro a
  simp only [List.mem_finRange, iff_true]
  rcases Finite.injective_iff_surjective.mp hf a with ⟨b, hb⟩
  exact (List.mem_ofFn f a).mpr (Set.mem_range.mpr ⟨b, hb⟩)

/-- Argsorting an injective key `Fin n → Fin n` and applying the key to the
result yields `0, 1, …, n-1` in order: the sorted key values of a
permutation are exactly the increasing enumeration. -/
lemma map_argsort_eq_finRange {n : ℕ} (key : Fin n → Fin n) (hinj : Function.Injective key) :
    (argsort key).map key = List.finRange n := by
  haveI : IsAntisymm (Fin n) ((· < ·) : Fin n → Fin n → Prop) :=
    ⟨fun _ _ h1 h2 => (lt_asymm h1 h2).elim⟩
  have hperm : List.Perm ((argsort key).map key) (List.finRange n) := by
    refine List.Perm.trans (List.Perm.map key (argsort_perm key)) ?_
    rw [← List.ofFn_eq_map]
    exact ofFn_perm_finRange key hinj
  have hpw : List.Pairwise (fun a b => key a < key b) (argsort key) := by
    have h12 := (sorted_argsort key).and (nodup_argsort key)
    refine h12.imp ?_
    rintro a b ⟨hr, hne⟩
    rcases hr with hlt | ⟨heq, _⟩
    · exact hlt
    · exact absurd (hinj heq) hne
  have hsorted : List.Sorted (· < ·) ((argsort key).map key) := by
    rw [List.Sorted, List.pairwise_map]
    exact hpw
  exact List.eq_of_perm_of_sorted hperm hsorted (List.pairwise_lt_finRange n)

lemma ordFn_injective {n d : ℕ} (X : Cloud n d) (i : Fin n) :
    Function.Injective (ordFn X i) := by
  intro a b hab
  have h2 := (List.Nodup.get_inj_iff (nodup_argsort _)).mp hab
  have h3 : (a : ℕ) = b := by simpa using congrArg Fin.val h2
  exact Fin.ext h3

/-- The rank matrix inverts the ordering: the point stored at sorted
position `rank X i j` is `j` itself. -/
lemma ordFn_rank {n d : ℕ} (X : Cloud n d) (i j : Fin n) :
    ordFn X i (rank X i j) = j := by
  have hL := map_argsort_eq_finRange (ordFn X i) (ordFn_injective X i)
  have hja : (j : ℕ) < (argsort (ordFn X i)).length := by
    rw [length_argsort]
    exact j.isLt
  have hjf : (j : ℕ) < (List.finRange n).length := by
    rw [List.length_finRange]
    exact j.isLt
  have h0 : ((argsort (ordFn X i)).map (ordFn X i))[(j : ℕ)]? =
      (List.finRange n)[(j : ℕ)]? := by
    rw [hL]
  rw [List.getElem?_map, List.getElem?_eq_getElem hja, List.getElem?_eq_getElem hjf] at h0
  simp only [Option.map_some', Option.some_inj, List.getElem_finRange] at h0
  exact h0.trans (by apply Fin.ext; simp)

/-- With pairwise distinct rows, point `i` is the strict nearest point to
itself, so the stable sort puts it first and nowhere else. -/
lemma ordering_eq_cons {n d : ℕ} (X : Cloud n d) (i : Fin n) (hX : DistinctRows X) :
    ∃ t, ordering X i = i :: t ∧ i ∉ t := by
  apply argsort_eq_cons
  intro j hj
  rw [pdistSq_self]
  rcases lt_or_eq_of_le (pdistSq_nonneg X i j) with h | h
  · exact h
  · exact absurd ((pdistSq_eq_zero_iff X i j).mp h.symm) (hX i j (Ne.symm hj))

lemma ordFn_zero {n d : ℕ} (X : Cloud n d) (i : Fin n) (hX : DistinctRows X) :
    ordFn X i ⟨0, i.pos⟩ = i := by
  rcases ordering_eq_cons X i hX with ⟨t, ht, _⟩
  unfold ordFn
  simp only [List.get_eq_getElem]
  rw [List.getElem_of_eq ht]
  rfl

lemma rank_injective {n d : ℕ} (X : Cloud n d) (i : Fin n) :
    Function.Injective (rank X i) := by
  intro a b hab
  have h2 := (List.Nodup.get_inj_iff (nodup_argsort _)).mp hab
  have h3 : (a : ℕ) = b := by simpa using congrArg Fin.val h2
  exact Fin.ext h3

/-- With pairwise distinct rows, every point has rank `0` relative to
itself. -/
lemma rank_self {n d : ℕ} (X : Cloud n d) (i : Fin n) (hX : DistinctRows X) :
    (rank X i i : ℕ) = 0 := by
  have h1 : ordFn X i (rank X i i) = i := ordFn_rank X i i
  have h2 : ordFn X i ⟨0, i.pos⟩ = i := ordFn_zero X i hX
  have h3 : rank X i i = ⟨0, i.pos⟩ := ordFn_injective X i (h1.trans h2.symm)
  rw [h3]

lemma nodup_neighbourhood {n d : ℕ} (X : Cloud n d) (k : ℕ) (i : Fin n) :
    (neighbourhood X k i).Nodup := by
  have h : (neighbourhood X k i).Sublist (ordering X i) :=
    ((ordering X i).drop 1).take_sublist k |>.trans ((ordering X i).drop_sublist 1)
  exact h.nodup (nodup_argsort _)

lemma length_neighbourhood {n d : ℕ} (X : Cloud n d) (k : ℕ) (i : Fin n) :
    (neighbourhood X k i).length = min k (n - 1) := by
  simp [neighbourhood, length_ordering]

/-- Summing a function over `np.setdiff1d(a, b)` is summing it over the set
of values of `a` not in `b` (each counted once). -/
lemma setdiff_sum_eq {n : ℕ} (a b : List (Fin n)) (f : Fin n → ℤ) :
    ((setdiff1d a b).map f).sum =
      ∑ j ∈ Finset.univ.filter (fun j => j ∈ a ∧ j ∉ b), f j := by
  unfold setdiff1d
  have hperm : List.Perm ((a.toFinset \ b.toFinset).sort LE.le)
      (a.toFinset \ b.toFinset).toList := Finset.sort_perm_toList _ _
  rw [List.Perm.sum_eq (hperm.map f), Finset.sum_to_list]
  apply Finset.sum_congr
  · ext j
    simp [Finset.mem_sdiff, List.mem_toFinset]
  · intro j _
    rfl

unseal Rat.add Rat.sub Rat.mul in
/-- Claim C1, counterexample to the claim as stated: in a cloud with two
identical points, the stable argsort of row 1 lists point 0 first (the tie
at distance zero breaks by ascending index), so the first neighbourhood
entry of row 1 is point 1 itself. -/
theorem c1_counterexample :
    (1 : Fin 2) ∈ (get_neighbours_and_ranks Xdup 1).1 1 := by decide

/-- Claim C1 (amended): for every point cloud with pairwise distinct rows,
every `k` and every point index `i`, row `i` of the neighbourhood matrix
returned by `get_neighbours_and_ranks` never contains `i` itself. -/
theorem c1_no_self_in_neighbourhood {n d : ℕ} (X : Cloud n d) (k : ℕ) (i : Fin n)
    (hX : DistinctRows X) :
    i ∉ (get_neighbours_and_ranks X k).1 i := by
  rcases ordering_eq_cons X i hX with ⟨t, ht, hnt⟩
  intro hmem
  have h1 : i ∈ ((ordering X i).drop 1).take k := hmem
  have h2 : i ∈ (ordering X i).drop 1 := List.mem_of_mem_take h1
  rw [ht] at h2
  simp only [List.drop_succ_cons, List.drop_zero] at h2
  exact hnt h2

unseal Rat.add Rat.sub Rat.mul in
/-- Witness for C1 at a concrete two-point cloud with distinct rows. -/
theorem c1_no_self_in_neighbourhood_witness :
    DistinctRows Xtwo ∧ (1 : Fin 2) ∉ (get_neighbours_and_ranks Xtwo 1).1 1 :=
  ⟨by decide, c1_no_self_in_neighbourhood Xtwo 1 1 (by decide)⟩

unseal Rat.add Rat.sub Rat.mul in
/-- Claim C2, counterexample to the claim as stated: with two identical
points, point 1 has rank 1 (not 0) relative to itself, because the stable
tie-break puts point 0 first in row 1's ordering. -/
theorem c2_counterexample :
    ((get_neighbours_and_ranks Xdup 1).2 1 1 : ℕ) ≠ 0 := by decide

/-- Claim C2 (amended): row `i` of the rank matrix is always a permutation
of `{0, …, n-1}`; and provided the rows of `X` are pairwise distinct, its
entry at position `i` equals 0. -/
theorem c2_rank_row_perm {n d : ℕ} (X : Cloud n d) (k : ℕ) (i : Fin n) :
    List.Perm (List.ofFn fun j => (get_neighbours_and_ranks X k).2 i j) (List.finRange n) ∧
      (DistinctRows X → ((get_neighbours_and_ranks X k).2 i i : ℕ) = 0) :=
  ⟨ofFn_perm_finRange _ (rank_injective X i), fun hX => rank_self X i hX⟩

unseal Rat.add Rat.sub Rat.mul in
/-- Witness for C2 at a concrete two-point cloud with distinct rows. -/
theorem c2_rank_row_perm_witness :
    List.Perm (List.ofFn fun j => (get_neighbours_and_ranks Xtwo 1).2 1 j) (List.finRange 2) ∧
      DistinctRows Xtwo ∧ ((get_neighbours_and_ranks Xtwo 1).2 1 1 : ℕ) = 0 :=
  ⟨(c2_rank_row_perm Xtwo 1 1).1, by decide, (c2_rank_row_perm Xtwo 1 1).2 (by decide)⟩

/-- Claim C4: continuity is exactly trustworthiness with the roles of the
two spaces swapped; the definition delegates, so the identity holds for all
arguments. -/
theorem c4_continuity_eq_flipped_trustworthiness {n d e : ℕ} (X : Cloud n d) (Z : Cloud n e)
    (k : ℕ) : continuity X Z k = trustworthiness Z X k := rfl

/-- Claim C6: the pairwise distance matrix is symmetric, zero on the
diagonal, non-negative, and its `(i, j)` entry is the Euclidean distance
between rows `i` and `j`. -/
theorem c6_pairwise_distances_props {n d : ℕ} (X : Cloud n d) (i j : Fin n) :
    pairwise_distances X i j = pairwise_distances X j i ∧
      pairwise_distances X i i = 0 ∧
      0 ≤ pairwise_distances X i j ∧
      pairwise_distances X i j = euclideanDist (X i) (X j) := by
  refine ⟨?_, ?_, Real.sqrt_nonneg _, ?_⟩
  · unfold pairwise_distances
    rw [pdistSq_comm]
  · unfold pairwise_distances
    rw [pdistSq_self]
    simp
  · unfold pairwise_distances euclideanDist
    congr 1
    simp only [pdistSq]
    push_cast
    rfl

unseal Rat.add Rat.sub Rat.mul in
/-- Claim C8: the code does not fail fast on invalid `k`.  On a two-point
cloud, `k = 5 ≥ n` silently truncates the neighbourhood to one column and
`k = 0` silently returns empty neighbourhoods; no error is raised. -/
theorem c8_no_failfast_on_invalid_k :
    ((get_neighbours_and_ranks Xtwo 5).1 0).length = 1 ∧
      ((get_neighbours_and_ranks Xtwo 0).1 0).length = 0 := by decide

/-- Claim C10: for `k ≥ n` the neighbourhood slice silently truncates, and
each row of the returned neighbourhood matrix has `n - 1` entries instead
of the requested `k` (the function is total — no error is raised). -/
theorem c10_silent_truncation {n d : ℕ} (X : Cloud n d) (k : ℕ) (hk : n ≤ k) (i : Fin n) :
    ((get_neighbours_and_ranks X k).1 i).length = n - 1 := by
  show (neighbourhood X k i).length = n - 1
  rw [length_neighbourhood]
  omega

/-- Witness for C10 at a concrete two-point cloud with `k = 5`. -/
theorem c10_silent_truncation_witness :
    2 ≤ 5 ∧ ((get_neighbours_and_ranks Xtwo 5).1 1).length = 2 - 1 :=
  ⟨by decide, c10_silent_truncation Xtwo 5 (by decide) 1⟩

unseal Rat.add Rat.sub Rat.mul in
/-- Claim C3, counterexample to the claim as stated: for a one-point cloud
every distance in the latent space is zero, so the stress denominator is
zero and the result is NaN (with a runtime warning), not 0. -/
theorem c3_counterexample : stress Xone Xone ≠ some 0 := by
  have h : stress Xone Xone = none := by
    unfold stress
    rw [if_pos (by decide)]
  rw [h]
  simp

/-- Claim C3 (amended): RMSE(X, X) = 0 for every non-empty cloud, and
stress(X, X) = 0 for every cloud having at least two distinct rows (which
makes the denominator non-zero). -/
theorem c3_self_comparison_zero {n d : ℕ} (X : Cloud n d) :
    (0 < n → RMSE X X = some 0) ∧ ((∃ i j : Fin n, X i ≠ X j) → stress X X = some 0) := by
  have hnum : sum_of_squared_differences X X = 0 := by
    unfold sum_of_squared_differences
    simp
  constructor
  · intro hn
    unfold RMSE
    rw [if_neg (Nat.pos_iff_ne_zero.mp hn), hnum, zero_div, Real.sqrt_zero]
  · rintro ⟨i, j, hij⟩
    have hterm : 0 < pdistSq X i j := by
      rcases lt_or_eq_of_le (pdistSq_nonneg X i j) with h | h
      · exact h
      · exact absurd ((pdistSq_eq_zero_iff X i j).mp h.symm) hij
    have hpos : 0 < sum_of_squares X := by
      unfold sum_of_squares
      refine Finset.sum_pos'
        (fun a _ => Finset.sum_nonneg fun b _ => pdistSq_nonneg X a b)
        ⟨i, Finset.mem_univ i, ?_⟩
      exact Finset.sum_pos' (fun b _ => pdistSq_nonneg X i b)
        ⟨j, Finset.mem_univ j, hterm⟩
    unfold stress
    rw [if_neg (ne_of_gt hpos), hnum, zero_div, Real.sqrt_zero]

unseal Rat.add Rat.sub Rat.mul in
/-- Witness for C3 at a concrete two-point cloud with distinct rows. -/
theorem c3_self_comparison_zero_witness :
    (0 < 2 ∧ RMSE Xtwo Xtwo = some 0) ∧
      ((∃ i j : Fin 2, Xtwo i ≠ Xtwo j) ∧ stress Xtwo Xtwo = some 0) :=
  ⟨⟨by decide, (c3_self_comparison_zero Xtwo).1 (by decide)⟩,
   ⟨by decide, (c3_self_comparison_zero Xtwo).2 (by decide)⟩⟩

/-- Claim C7: comparing a space with itself gives full neighbourhood
overlap, so for every valid `k` the neighbourhood loss is zero. -/
theorem c7_neighbourhood_loss_self {n d : ℕ} (X : Cloud n d) (k : ℕ)
    (hk1 : 1 ≤ k) (hk2 : k < n) :
    neighbouhood_loss X X k = some 0 := by
  have hn : n ≠ 0 := by omega
  have hks : k ≠ 0 := by omega
  unfold neighbouhood_loss
  rw [if_neg (by push_neg; exact ⟨hn, hks⟩)]
  have hlen : ∀ i : Fin n,
      (intersect1d (neighbourhood X k i) (neighbourhood X k i)).length = k := by
    intro i
    unfold intersect1d
    rw [Finset.inter_self, Finset.length_sort,
      List.toFinset_card_of_nodup (nodup_neighbourhood X k i), length_neighbourhood]
    omega
  have hsum : (∑ i : Fin n,
      ((intersect1d (neighbourhood X k i) (neighbourhood X k i)).length : ℚ) / k)
      = n := by
    have hkq : (k : ℚ) ≠ 0 := Nat.cast_ne_zero.mpr hks
    simp only [hlen, div_self hkq]
    rw [Finset.sum_const, Finset.card_univ, Fintype.card_fin]
    simp
  rw [hsum]
  have hnq : (n : ℚ) ≠ 0 := Nat.cast_ne_zero.mpr hn
  rw [div_self hnq]
  simp

/-- Witness for C7 at a concrete two-point cloud with `k = 1`. -/
theorem c7_neighbourhood_loss_self_witness :
    1 ≤ 1 ∧ 1 < 2 ∧ neighbouhood_loss Xtwo Xtwo 1 = some 0 :=
  ⟨le_refl 1, by decide, c7_neighbourhood_loss_self Xtwo 1 (le_refl 1) (by decide)⟩

/-- Claim C9: degenerate denominators are surfaced rather than silently
returned: all-zero latent distances make stress produce NaN/inf together
with a numpy warning (modelled `none`), and a zero normalisation constant
makes trustworthiness raise `ZeroDivisionError` (modelled `none`). -/
theorem c9_degenerate_denominators :
    (∀ (n d e : ℕ) (X : Cloud n d) (Z : Cloud n e),
        (∀ i j : Fin n, pdistSq Z i j = 0) → stress X Z = none) ∧
      (∀ (n d e : ℕ) (X : Cloud n d) (Z : Cloud n e) (k : ℕ),
        2 * (n : ℤ) - 3 * k - 1 = 0 → trustworthiness X Z k = none) := by
  constructor
  · intro n d e X Z hz
    have h0 : sum_of_squares Z = 0 :=
      Finset.sum_eq_zero fun i _ => Finset.sum_eq_zero fun j _ => hz i j
    unfold stress
    rw [if_pos h0]
  · intro n d e X Z k hk
    have h0 : (n : ℤ) * k * (2 * n - 3 * k - 1) = 0 := by
      rw [hk, mul_zero]
    unfold trustworthiness
    rw [if_pos h0]

unseal Rat.add Rat.sub Rat.mul in
/-- Witness for C9: a two-point latent space with coincident points makes
stress degenerate, and `n = 2, k = 1` zeroes trustworthiness's
normalisation constant. -/
theorem c9_degenerate_denominators_witness :
    stress Xtwo Xdup = none ∧ trustworthiness Xtwo Xtwo 1 = none :=
  ⟨c9_degenerate_denominators.1 2 1 1 Xtwo Xdup (by decide),
   c9_degenerate_denominators.2 2 1 1 Xtwo Xtwo 1 (by decide)⟩

/-- Claim C5: for valid `k` with non-zero normalisation constant,
trustworthiness equals one minus `2 / (n·k·(2n − 3k − 1))` times the sum,
over every point `i` and every neighbour `j` of `i` in `Z`'s
`k`-neighbourhood but not in `X`'s `k`-neighbourhood, of the excess
`rank X i j − k`. -/
theorem c5_trustworthiness_formula {n d e : ℕ} (X : Cloud n d) (Z : Cloud n e) (k : ℕ)
    (hk1 : 1 ≤ k) (hk2 : k < n) (hden : 2 * (n : ℤ) - 3 * k - 1 ≠ 0) :
    trustworthiness X Z k =
      some (1 - 2 / ((n : ℚ) * k * (2 * n - 3 * k - 1)) *
        ∑ i : Fin n, ∑ j ∈ Finset.univ.filter
          (fun j => j ∈ neighbourhood Z k i ∧ j ∉ neighbourhood X k i),
          ((rank X i j : ℚ) - k)) := by
  have hn0 : (n : ℤ) ≠ 0 := Int.natCast_ne_zero.mpr (by omega)
  have hk0 : (k : ℤ) ≠ 0 := Int.natCast_ne_zero.mpr (by omega)
  have h1 : (n : ℤ) * k * (2 * n - 3 * k - 1) ≠ 0 :=
    mul_ne_zero (mul_ne_zero hn0 hk0) hden
  unfold trustworthiness
  rw [if_neg h1]
  have hz : trustSum X Z k = ∑ i : Fin n, ∑ j ∈ Finset.univ.filter
      (fun j => j ∈ neighbourhood Z k i ∧ j ∉ neighbourhood X k i),
      ((rank X i j : ℤ) - (k : ℤ)) := by
    unfold trustSum
    exact Finset.sum_congr rfl fun i _ => setdiff_sum_eq _ _ _
  rw [hz]
  congr 1
  push_cast
  ring

unseal Rat.add Rat.sub Rat.mul Rat.inv in
/-- Witness for C5: three collinear points against a stretched embedding,
`k = 1`: one intruding neighbour of excess rank 1 gives `1 - 2/6 = 2/3`. -/
theorem c5_trustworthiness_formula_witness :
    1 ≤ 1 ∧ 1 < 3 ∧ 2 * (3 : ℤ) - 3 * 1 - 1 ≠ 0 ∧
      trustworthiness Xthree Zthree 1 = some (2 / 3) :=
  ⟨le_refl 1, by decide, by decide,
    (c5_trustworthiness_formula Xthree Zthree 1 (le_refl 1) (by decide) (by decide)).trans
      (by decide)⟩

end Measures
